import Mathlib

/-!
Verification of the Ambience-AI-1.5 retrieval-and-generation core.

The repository snapshot contains the database schemas
(`rag_service/scripts/init_db.sql`, `rag_service/scripts/migrations/*.sql`),
the inference-server launch script (`rag-project/serve/start.sh`), the service
READMEs and the frontend, but not the Python sources of the ingestion,
retrieval, generation and routing components.  Where a component's code is
absent, its definition below is modelled from the specification (each such
definition says so in its doc comment).  Schema-level and server-level facts
are taken directly from the SQL and shell sources.
-/

namespace AmbienceCore

/- ## Grounded Generator: citation extraction -/

/-- A retrieved source passage as it is numbered into the grounded prompt and
as it is returned in a citation (`document_id`, `page_number`,
`section_title`). -/
structure SourcePassage where
  document_id : Nat
  page_number : Nat
  section_title : String
deriving DecidableEq, Repr

/-- Numeric value of a list of decimal digit characters. -/
def digitsVal (ds : List Char) : Nat :=
  ds.foldl (fun n c => 10 * n + (c.toNat - 48)) 0

/-- Scanner state while looking for citation markers of the fixed format
`[n]`: the markers found so far and, when inside a bracket, the digit
characters read since the opening bracket. -/
structure ScanState where
  found : List Nat
  cur : Option (List Char)
deriving Repr

/-- Modelled from the spec: one step of the citation-marker scanner of the
Grounded Generator (the `rag_service` generation sources are not in the
repository snapshot).  The raw model text is parsed for markers matching the
fixed format `[n]`; anything else passes through without effect. -/
def scanChar (st : ScanState) (c : Char) : ScanState :=
  match st.cur with
  | none => if c = '[' then ⟨st.found, some []⟩ else st
  | some ds =>
    if c.isDigit then ⟨st.found, some (ds ++ [c])⟩
    else if c = ']' then
      if ds.isEmpty then ⟨st.found, none⟩
      else ⟨st.found ++ [digitsVal ds], none⟩
    else if c = '[' then ⟨st.found, some []⟩
    else ⟨st.found, none⟩

/-- Modelled from the spec: extract every citation marker `[n]` occurring in
the model's raw output text, in order of occurrence. -/
def extractMarkers (s : String) : List Nat :=
  (s.toList.foldl scanChar ⟨[], none⟩).found

/-- Modelled from the spec: keep only marker numbers that name one of the
`numSources` supplied source passages (sources are numbered 1-based in the
prompt); out-of-range markers are stripped, and duplicates collapse. -/
def validMarkers (numSources : Nat) (ms : List Nat) : List Nat :=
  (ms.filter (fun n => decide (1 ≤ n) && decide (n ≤ numSources))).dedup

/-- Modelled from the spec: the citations the Grounded Generator returns for a
given list of prompt sources and a raw model output.  Parsing is total: an
out-of-range marker is dropped silently, never surfaced as an error. -/
def groundedCitations (sources : List SourcePassage) (modelText : String) :
    List SourcePassage :=
  (validMarkers sources.length (extractMarkers modelText)).filterMap
    (fun n => sources.get? (n - 1))

example : extractMarkers "...cites [1] and [3]" = [1, 3] := by rfl

/-- Concrete source passage numbered 1 in the Scenario E prompt. -/
def sourceOne : SourcePassage := ⟨1, 4, "Insulin safety"⟩

/-- Concrete source passage numbered 2 in the Scenario E prompt. -/
def sourceTwo : SourcePassage := ⟨2, 9, "Dosing"⟩

/-- C1: every citation returned by the Grounded Generator references a source
passage actually supplied in the prompt, and (Scenario E) a model output
citing `[1]` and `[3]` with only sources 1 and 2 supplied yields citations
for source 1 only — the out-of-range marker `[3]` is stripped silently, the
parse being total rather than error-raising. -/
theorem citation_soundness :
    (∀ (sources : List SourcePassage) (t : String),
      ∀ c ∈ groundedCitations sources t, c ∈ sources) ∧
    groundedCitations [sourceOne, sourceTwo] "...cites [1] and [3]" =
      [sourceOne] := by
  constructor
  · intro sources t c hc
    rcases List.mem_filterMap.mp hc with ⟨n, _, hget⟩
    exact List.get?_mem hget
  · rfl

/-- Witness: the soundness half of `citation_soundness` applied at the
concrete Scenario E input. -/
theorem citation_soundness_witness :
    sourceOne ∈ [sourceOne, sourceTwo] :=
  citation_soundness.1 [sourceOne, sourceTwo] "...cites [1] and [3]" sourceOne
    (by rw [citation_soundness.2]; exact List.mem_singleton.mpr rfl)

/- ## Model Router -/

/-- The two router targets: the lower-latency local backend (e.g. Med42-7B)
and the higher-capacity cloud backend (e.g. Med42-80B). -/
inductive Target where
  | localTarget
  | cloudTarget
deriving DecidableEq, Repr

/-- The other of the two targets. -/
def otherTarget : Target → Target
  | .localTarget => .cloudTarget
  | .cloudTarget => .localTarget

/-- Outcome of one dispatch leg against one target: generated text on
success, or one of the failure modes (timeout, non-success HTTP status,
unparseable response body). -/
inductive LegOutcome where
  | ok (text : String)
  | timeout
  | badStatus (code : Nat)
  | badBody
deriving DecidableEq, Repr

/-- Whether a leg outcome is a success. -/
def LegOutcome.isOk : LegOutcome → Bool
  | .ok _ => true
  | _ => false

/-- The router's normalized successful response shape: generated text, which
target ultimately served the request, and whether the fallback hop was
taken. -/
structure DispatchSuccess where
  text : String
  target_used : Target
  fallback_used : Bool
deriving DecidableEq, Repr

/-- Result of `dispatch`: a normalized success, or the single terminal
failure surfaced when both targets are exhausted. -/
inductive DispatchResult where
  | success (r : DispatchSuccess)
  | failure
deriving DecidableEq, Repr

/-- Modelled from the spec: the Model Router's dispatch state machine
(`SELECT_TARGET → DISPATCH_PRIMARY → {SUCCESS | DISPATCH_FALLBACK} →
{SUCCESS | FAILURE}`; the backend router sources are not in the repository
snapshot).  `env` gives each target's behaviour for this request.  The
result is paired with the trace of targets actually attempted, in order. -/
def dispatchTrace (env : Target → LegOutcome) (primary : Target) :
    DispatchResult × List Target :=
  match env primary with
  | .ok t => (.success ⟨t, primary, false⟩, [primary])
  | _ =>
    match env (otherTarget primary) with
    | .ok t => (.success ⟨t, otherTarget primary, true⟩,
        [primary, otherTarget primary])
    | _ => (.failure, [primary, otherTarget primary])

/-- Modelled from the spec: `dispatch` is the result component of
`dispatchTrace`. -/
def dispatch (env : Target → LegOutcome) (primary : Target) : DispatchResult :=
  (dispatchTrace env primary).1

/-- C2: the router attempts at most two legs in every execution; when the
primary leg fails it retries exactly once against the other target; a
successful fallback leg yields a success recorded with `fallback_used =
true`; and when both legs fail a single terminal failure is surfaced. -/
theorem router_single_fallback :
    ∀ (env : Target → LegOutcome) (p : Target),
      (dispatchTrace env p).2.length ≤ 2 ∧
      ((env p).isOk = false →
        (dispatchTrace env p).2 = [p, otherTarget p]) ∧
      (∀ s, (env p).isOk = false → env (otherTarget p) = .ok s →
        dispatch env p = .success ⟨s, otherTarget p, true⟩) ∧
      ((env p).isOk = false → (env (otherTarget p)).isOk = false →
        dispatch env p = .failure) := by
  intro env p
  cases h1 : env p <;> cases h2 : env (otherTarget p) <;>
    simp [dispatchTrace, dispatch, LegOutcome.isOk, h1, h2]

/-- Concrete per-request behaviour for Scenario D: the cloud target is
unreachable (times out) and the local target answers. -/
def envCloudDown : Target → LegOutcome
  | .cloudTarget => .timeout
  | .localTarget => .ok "grounded answer"

/-- Witness: `router_single_fallback` applied at the Scenario D environment
(cloud primary unreachable, local fallback succeeds with
`fallback_used = true`). -/
theorem router_single_fallback_witness :
    dispatch envCloudDown Target.cloudTarget =
      .success ⟨"grounded answer", Target.localTarget, true⟩ :=
  (router_single_fallback envCloudDown Target.cloudTarget).2.2.1
    "grounded answer" (by rfl) (by rfl)

/-- Router decision configuration, named after the environment variables in
the repository README: `MODEL_ROUTER_FORCE_TARGET` (`auto` modelled as
`none`), `MODEL_ROUTER_CLOUD_MIN_TOKENS`, `MODEL_ROUTER_CLOUD_MIN_COMPLEXITY`. -/
structure RouterConfig where
  force_target : Option Target
  cloud_min_tokens : Nat
  cloud_min_complexity : Nat
deriving DecidableEq, Repr

/-- Modelled from the spec: router target selection.  A forced-target
override wins unconditionally; otherwise the cloud target is chosen exactly
when the combined prompt-plus-expected-output token length exceeds the
configured minimum or the query-complexity score exceeds the configured
minimum. -/
def selectTarget (cfg : RouterConfig) (promptTokens expectedOutputTokens
    complexity : Nat) : Target :=
  match cfg.force_target with
  | some t => t
  | none =>
    if cfg.cloud_min_tokens < promptTokens + expectedOutputTokens ∨
        cfg.cloud_min_complexity < complexity
    then .cloudTarget
    else .localTarget

/-- C6: a configured forced target is selected unconditionally; with no
override, the cloud target is selected exactly when the combined token
length exceeds its configured minimum or the complexity score exceeds its
configured minimum, and the local target is selected otherwise. -/
theorem router_target_selection :
    ∀ (cfg : RouterConfig) (pt eo cx : Nat),
      (∀ t, cfg.force_target = some t → selectTarget cfg pt eo cx = t) ∧
      (cfg.force_target = none →
        ((selectTarget cfg pt eo cx = .cloudTarget ↔
          (cfg.cloud_min_tokens < pt + eo ∨ cfg.cloud_min_complexity < cx)) ∧
         (selectTarget cfg pt eo cx = .localTarget ↔
          ¬(cfg.cloud_min_tokens < pt + eo ∨ cfg.cloud_min_complexity < cx)))) := by
  intro cfg pt eo cx
  cases hf : cfg.force_target with
  | some t => simp [selectTarget, hf]
  | none =>
    refine ⟨by simp, fun _ => ?_⟩
    by_cases hc : cfg.cloud_min_tokens < pt + eo ∨ cfg.cloud_min_complexity < cx <;>
      simp [selectTarget, hf, hc]

/-- Witness: `router_target_selection` applied at a Scenario C configuration
(forced-target override `local`) with a prompt far above the token
threshold: local is still selected. -/
theorem router_target_selection_witness :
    selectTarget ⟨some Target.localTarget, 500, 2⟩ 10000 512 9 =
      Target.localTarget :=
  (router_target_selection ⟨some Target.localTarget, 500, 2⟩ 10000 512 9).1
    Target.localTarget rfl

/- ## Store: idempotent re-ingestion (rag_chunks upsert) -/

/-- A row of the `rag_chunks` table
(`rag_service/scripts/migrations/001_create_rag_chunks.sql`), restricted to
the columns relevant to row identity and content. -/
structure RagChunkRow where
  doc_id : String
  doc_version : String
  chunk_id : String
  chunk_index : Nat
  text : String
deriving DecidableEq, Repr

/-- The composite identity key of a row, per the `rag_chunks_unique`
constraint `UNIQUE (doc_id, doc_version, chunk_id)`. -/
def rowKey (r : RagChunkRow) : String × String × String :=
  (r.doc_id, r.doc_version, r.chunk_id)

/-- The list of identity keys of a table. -/
def keysOf (t : List RagChunkRow) : List (String × String × String) :=
  t.map rowKey

/-- Modelled from the spec: writing one chunk row against the
`rag_chunks_unique` constraint upserts — a row whose composite key is
already present is updated in place, otherwise the row is inserted (the
Python ingestion sources are not in the repository snapshot; the uniqueness
constraint itself is in `001_create_rag_chunks.sql`). -/
def upsertChunk (table : List RagChunkRow) (r : RagChunkRow) :
    List RagChunkRow :=
  if table.any (fun q => decide (rowKey q = rowKey r)) then
    table.map (fun q => if rowKey q = rowKey r then r else q)
  else table ++ [r]

/-- Modelled from the spec: ingesting a document version writes its chunk
batch row by row through the upsert. -/
def ingestChunks (table : List RagChunkRow) (batch : List RagChunkRow) :
    List RagChunkRow :=
  batch.foldl upsertChunk table

theorem keysOf_upsert_mem (t : List RagChunkRow) (r : RagChunkRow)
    (h : rowKey r ∈ keysOf t) : keysOf (upsertChunk t r) = keysOf t := by
  have hany : (t.any (fun q => decide (rowKey q = rowKey r))) = true := by
    rcases List.mem_map.mp h with ⟨q, hq, hkey⟩
    exact List.any_eq_true.mpr ⟨q, hq, by simp [hkey]⟩
  unfold upsertChunk keysOf
  rw [if_pos hany, List.map_map]
  apply List.map_congr_left
  intro q _
  by_cases he : rowKey q = rowKey r
  · simp [he]
  · simp [he]

theorem keysOf_upsert_not_mem (t : List RagChunkRow) (r : RagChunkRow)
    (h : rowKey r ∉ keysOf t) :
    keysOf (upsertChunk t r) = keysOf t ++ [rowKey r] := by
  have hany : (t.any (fun q => decide (rowKey q = rowKey r))) = false := by
    rw [List.any_eq_false]
    intro q hq
    simp only [decide_eq_true_eq]
    intro he
    exact h (List.mem_map.mpr ⟨q, hq, he⟩)
  unfold upsertChunk keysOf
  rw [if_neg (by simp [hany]), List.map_append]
  rfl

theorem mem_keysOf_upsert (t : List RagChunkRow) (r : RagChunkRow) :
    rowKey r ∈ keysOf (upsertChunk t r) := by
  by_cases h : rowKey r ∈ keysOf t
  · rw [keysOf_upsert_mem t r h]; exact h
  · rw [keysOf_upsert_not_mem t r h]; simp

theorem mem_keysOf_upsert_of_mem (t : List RagChunkRow) (r : RagChunkRow)
    (k : String × String × String) (hk : k ∈ keysOf t) :
    k ∈ keysOf (upsertChunk t r) := by
  by_cases h : rowKey r ∈ keysOf t
  · rw [keysOf_upsert_mem t r h]; exact hk
  · rw [keysOf_upsert_not_mem t r h]; exact List.mem_append_left _ hk

theorem mem_keysOf_ingest_of_mem (batch : List RagChunkRow) :
    ∀ (t : List RagChunkRow) (k : String × String × String),
      k ∈ keysOf t → k ∈ keysOf (ingestChunks t batch) := by
  induction batch with
  | nil => intro t k hk; exact hk
  | cons r rest ih =>
    intro t k hk
    exact ih (upsertChunk t r) k (mem_keysOf_upsert_of_mem t r k hk)

theorem batch_keys_present (batch : List RagChunkRow) :
    ∀ (t : List RagChunkRow), ∀ r ∈ batch,
      rowKey r ∈ keysOf (ingestChunks t batch) := by
  induction batch with
  | nil => intro t r hr; cases hr
  | cons q rest ih =>
    intro t r hr
    rcases List.mem_cons.mp hr with he | hm
    · subst he
      exact mem_keysOf_ingest_of_mem rest (upsertChunk t r) (rowKey r)
        (mem_keysOf_upsert t r)
    · exact ih (upsertChunk t q) r hm

theorem keysOf_ingest_of_present (batch : List RagChunkRow) :
    ∀ (t : List RagChunkRow), (∀ r ∈ batch, rowKey r ∈ keysOf t) →
      keysOf (ingestChunks t batch) = keysOf t := by
  induction batch with
  | nil => intro t _; rfl
  | cons q rest ih =>
    intro t hpres
    have hq : rowKey q ∈ keysOf t := hpres q (List.mem_cons_self q rest)
    have hstep : keysOf (upsertChunk t q) = keysOf t := keysOf_upsert_mem t q hq
    have : keysOf (ingestChunks (upsertChunk t q) rest) = keysOf (upsertChunk t q) := by
      apply ih
      intro r hr
      rw [hstep]
      exact hpres r (List.mem_cons_of_mem q hr)
    exact this.trans hstep

theorem length_eq_keysOf_length (t : List RagChunkRow) :
    t.length = (keysOf t).length := by
  unfold keysOf; rw [List.length_map]

theorem nodup_keysOf_upsert (t : List RagChunkRow) (r : RagChunkRow)
    (h : (keysOf t).Nodup) : (keysOf (upsertChunk t r)).Nodup := by
  by_cases hm : rowKey r ∈ keysOf t
  · rw [keysOf_upsert_mem t r hm]; exact h
  · rw [keysOf_upsert_not_mem t r hm]
    exact List.nodup_append.mpr ⟨h, List.nodup_singleton _,
      by intro k hk hk2; rw [List.mem_singleton] at hk2; exact hm (hk2 ▸ hk)⟩

theorem nodup_keysOf_ingest (batch : List RagChunkRow) :
    ∀ (t : List RagChunkRow), (keysOf t).Nodup →
      (keysOf (ingestChunks t batch)).Nodup := by
  induction batch with
  | nil => intro t h; exact h
  | cons q rest ih =>
    intro t h
    exact ih (upsertChunk t q) (nodup_keysOf_upsert t q h)

/-- C3: ingesting the same document version twice with identical chunk
identities is idempotent — the second ingest upserts by the composite key
`(doc_id, doc_version, chunk_id)`, so the row count after the second ingest
equals the row count after the first, and (starting from a table with no
duplicate keys) no duplicate rows exist afterwards. -/
theorem ingest_idempotent_row_count :
    ∀ (t batch : List RagChunkRow),
      (ingestChunks (ingestChunks t batch) batch).length =
        (ingestChunks t batch).length ∧
      ((keysOf t).Nodup →
        (keysOf (ingestChunks (ingestChunks t batch) batch)).Nodup) := by
  intro t batch
  constructor
  · rw [length_eq_keysOf_length, length_eq_keysOf_length (ingestChunks t batch)]
    rw [keysOf_ingest_of_present batch (ingestChunks t batch)
      (batch_keys_present batch t)]
  · intro h
    exact nodup_keysOf_ingest batch (ingestChunks t batch)
      (nodup_keysOf_ingest batch t h)

/-- Witness: `ingest_idempotent_row_count` applied at the empty table and a
concrete two-chunk batch. -/
theorem ingest_idempotent_row_count_witness :
    (keysOf (ingestChunks (ingestChunks []
      [⟨"nice-ra", "v1", "c0", 0, "alpha"⟩, ⟨"nice-ra", "v1", "c1", 1, "beta"⟩])
      [⟨"nice-ra", "v1", "c0", 0, "alpha"⟩, ⟨"nice-ra", "v1", "c1", 1, "beta"⟩])).Nodup :=
  (ingest_idempotent_row_count []
    [⟨"nice-ra", "v1", "c0", 0, "alpha"⟩, ⟨"nice-ra", "v1", "c1", 1, "beta"⟩]).2
    (by simp [keysOf])

/- ## Ingestion Pipeline: chunking -/

/-- Configured chunk-size token budget (`CHUNK_SIZE=450` in the rag_service
README environment). -/
def CHUNK_SIZE : Nat := 450

/-- Configured chunk overlap (`CHUNK_OVERLAP=100` in the rag_service README
environment). -/
def CHUNK_OVERLAP : Nat := 100

/-- Modelled from the spec: split cleaned text (a token list) into
overlapping windows of at most `size` tokens, advancing by `step`
(`step = size - overlap` in the pipeline; the Python ingestion sources are
not in the repository snapshot).  `max 1 step` is only a totality guard: for
the configured values `step = 350 ≥ 1` and the guard is inert. -/
def chunkWindows (size step : Nat) : List String → List (List String)
  | [] => []
  | tok :: toks =>
    if (tok :: toks).length ≤ size then [tok :: toks]
    else (tok :: toks).take size ::
      chunkWindows size step ((tok :: toks).drop (max 1 step))
termination_by l => l.length
decreasing_by
  simp only [List.length_drop, List.length_cons]
  have h1 : 1 ≤ max 1 step := le_max_left _ _
  omega

/-- A chunk row as produced by a completed ingestion of one document:
its 0-based `chunk_index`, its `token_count` and its tokens. -/
structure IngestedChunk where
  chunk_index : Nat
  token_count : Nat
  tokens : List String
deriving DecidableEq, Repr

/-- Modelled from the spec: the chunk rows of one document, numbered in
order of production. -/
def mkChunks (size step : Nat) (tokens : List String) : List IngestedChunk :=
  (chunkWindows size step tokens).enum.map (fun p => ⟨p.1, p.2.length, p.2⟩)

/-- A Document row together with its chunk rows after ingestion completes:
`total_chunks` is the number of chunk rows written. -/
structure IngestedDocument where
  chunks : List IngestedChunk
  total_chunks : Nat
deriving DecidableEq, Repr

/-- Modelled from the spec: ingest one document's cleaned token stream,
producing its chunk rows and setting `total_chunks` on completion. -/
def ingestDocument (size step : Nat) (tokens : List String) :
    IngestedDocument :=
  ⟨mkChunks size step tokens, (mkChunks size step tokens).length⟩

theorem chunkWindows_window_le (size step : Nat) :
    ∀ (l : List String), ∀ w ∈ chunkWindows size step l, w.length ≤ size := by
  intro l
  induction l using chunkWindows.induct size step with
  | case1 => intro w hw; simp [chunkWindows] at hw
  | case2 tok toks hle =>
    intro w hw
    rw [chunkWindows, if_pos hle, List.mem_singleton] at hw
    subst hw; exact hle
  | case3 tok toks hgt ih =>
    intro w hw
    rw [chunkWindows, if_neg hgt] at hw
    rcases List.mem_cons.mp hw with he | hm
    · subst he
      rw [List.length_take]
      exact min_le_left _ _
    · exact ih w hm

/-- C7: after ingestion of a document completes, its `chunk_index` values
are exactly the contiguous sequence `0 .. total_chunks - 1` (no gaps, no
duplicates), and every chunk's `token_count` is at most the configured
chunk-size budget. -/
theorem chunk_contiguity :
    ∀ (size step : Nat) (tokens : List String),
      (ingestDocument size step tokens).chunks.map IngestedChunk.chunk_index =
        List.range (ingestDocument size step tokens).total_chunks ∧
      (ingestDocument size step tokens).chunks.all
        (fun c => decide (c.token_count ≤ size)) = true := by
  intro size step tokens
  constructor
  · show (mkChunks size step tokens).map IngestedChunk.chunk_index =
      List.range (mkChunks size step tokens).length
    unfold mkChunks
    rw [List.map_map, List.length_map, List.enum_length]
    exact List.enum_map_fst _
  · rw [List.all_eq_true]
    intro c hc
    rw [decide_eq_true_eq]
    rcases List.mem_map.mp hc with ⟨p, hp, he⟩
    have hw : p.2 ∈ chunkWindows size step tokens := by
      have := List.enum_map_snd (chunkWindows size step tokens)
      exact this ▸ List.mem_map_of_mem Prod.snd hp
    have : c.token_count = p.2.length := by rw [← he]
    rw [this]
    exact chunkWindows_window_le size step tokens p.2 hw

/- ## Store: per-document atomicity -/

/-- A Document row together with its chunk rows as visible in the store;
`total_chunks` is the value on the Document row. -/
structure StoredDoc where
  document_id : Nat
  chunks : List IngestedChunk
  total_chunks : Nat
deriving DecidableEq, Repr

/-- Outcome of one document's store transaction: the commit lands, or a
`StoreError` aborts it. -/
inductive StoreOutcome where
  | committed
  | storeError
deriving DecidableEq, Repr

/-- One ingestion attempt: which document, which chunk rows, and whether its
transaction commits. -/
structure IngestAttempt where
  document_id : Nat
  chunkRows : List IngestedChunk
  outcome : StoreOutcome
deriving DecidableEq, Repr

/-- Modelled from the spec: the store writes the Document row and all of its
Chunk rows inside a single atomic transaction, and sets `total_chunks` only
after all chunks commit; a `StoreError` rolls back the whole document, so
the visible store is either unchanged or extended by the complete document
(the Python storage sources are not in the repository snapshot). -/
def storeDocumentTxn (db : List StoredDoc) (a : IngestAttempt) :
    List StoredDoc :=
  match a.outcome with
  | .committed => db ++ [⟨a.document_id, a.chunkRows, a.chunkRows.length⟩]
  | .storeError => db

/-- The sequence of store states a concurrent reader can observe while a
sequence of ingestion attempts runs: the state before the first attempt and
the state after each committed or rolled-back transaction.  Intermediate
writes inside a transaction are never in this list — that is the atomicity
being modelled. -/
def visibleStates (db : List StoredDoc) : List IngestAttempt →
    List (List StoredDoc)
  | [] => [db]
  | a :: rest => db :: visibleStates (storeDocumentTxn db a) rest

/-- A stored document is complete: its Document row's `total_chunks` equals
the number of its chunk rows actually present. -/
def docComplete (d : StoredDoc) : Bool :=
  decide (d.total_chunks = d.chunks.length)

theorem visibleStates_complete (ops : List IngestAttempt) :
    ∀ (db : List StoredDoc), db.all docComplete = true →
      ((visibleStates db ops).all (fun s => s.all docComplete)) = true := by
  induction ops with
  | nil =>
    intro db hdb
    simp only [visibleStates, List.all_cons, List.all_nil, Bool.and_true]
    exact hdb
  | cons a rest ih =>
    intro db hdb
    simp only [visibleStates, List.all_cons]
    rw [hdb, Bool.true_and]
    apply ih
    cases ho : a.outcome with
    | committed =>
      simp only [storeDocumentTxn, ho, List.all_append, List.all_cons,
        List.all_nil, Bool.and_true]
      rw [hdb, Bool.true_and]
      simp [docComplete]
    | storeError => simpa only [storeDocumentTxn, ho]

/-- C4: starting from the empty store, a reader observing the store at any
point during any sequence of ingestion attempts only ever sees documents
whose full chunk set is present with `total_chunks` equal to it — chunks
land as one atomic unit per document — and a `StoreError` transaction leaves
the store exactly as it was (the whole document rolls back). -/
theorem store_atomic_visibility :
    ∀ (ops : List IngestAttempt),
      ((visibleStates ([] : List StoredDoc) ops).all
        (fun s => s.all docComplete)) = true ∧
      ∀ (db : List StoredDoc) (docId : Nat) (cs : List IngestedChunk),
        storeDocumentTxn db ⟨docId, cs, .storeError⟩ = db := by
  intro ops
  constructor
  · exact visibleStates_complete ops [] rfl
  · intro db docId cs
    rfl

/- ## Hybrid Retriever -/

/-- One hit from one retrieval branch (vector or lexical): the chunk's id,
its `chunk_index`, the owning document's `ingested_at` (larger = more
recent), and the branch's relevance score. -/
structure BranchHit where
  chunk_id : Nat
  chunk_index : Nat
  ingested_at : Nat
  score : ℚ
deriving DecidableEq, Repr

/-- An ephemeral RetrievedChunk candidate carrying its fused score. -/
structure FusedEntry where
  chunk_id : Nat
  chunk_index : Nat
  ingested_at : Nat
  fused_score : ℚ
deriving DecidableEq, Repr

/-- Modelled from the spec: the score a branch assigns to a chunk id, zero
when the chunk appears only in the other branch. -/
def branchScoreOf (b : List BranchHit) (cid : Nat) : ℚ :=
  match b.find? (fun h => decide (h.chunk_id = cid)) with
  | some h => h.score
  | none => 0

/-- Modelled from the spec: rank fusion — one combined score per chunk id as
a configurable weighted sum of the two branch scores (`wv`, `wl` are the
configured fusion weights); a chunk found by only one branch still
participates with the other branch contributing zero.  The concatenation may
still repeat a chunk id; deduplication is a separate step. -/
def fusedCandidates (wv wl : ℚ) (vb lb : List BranchHit) : List FusedEntry :=
  (vb ++ lb).map (fun h =>
    ⟨h.chunk_id, h.chunk_index, h.ingested_at,
      wv * branchScoreOf vb h.chunk_id + wl * branchScoreOf lb h.chunk_id⟩)

/-- Modelled from the spec: fold one candidate into the deduplicated
accumulator — an id already present keeps the entry with the best combined
score, a new id is appended. -/
def insertBest (acc : List FusedEntry) (e : FusedEntry) : List FusedEntry :=
  if acc.any (fun a => decide (a.chunk_id = e.chunk_id)) then
    acc.map (fun a =>
      if a.chunk_id = e.chunk_id ∧ a.fused_score < e.fused_score then e else a)
  else acc ++ [e]

/-- Modelled from the spec: deduplicate candidates by chunk id, keeping the
best combined score per id. -/
def dedupBest (es : List FusedEntry) : List FusedEntry :=
  es.foldl insertBest []

/-- Modelled from the spec: the result order — fused score descending, equal
scores broken by smaller `chunk_index`, then by more recent `ingested_at`. -/
def retRank (a b : FusedEntry) : Prop :=
  b.fused_score < a.fused_score ∨
    (a.fused_score = b.fused_score ∧
      (a.chunk_index < b.chunk_index ∨
        (a.chunk_index = b.chunk_index ∧ b.ingested_at ≤ a.ingested_at)))

instance : DecidableRel retRank := fun a b => by
  unfold retRank; infer_instance

instance : IsTotal FusedEntry retRank := by
  constructor
  intro a b
  unfold retRank
  rcases lt_trichotomy a.fused_score b.fused_score with h | h | h
  · exact Or.inr (Or.inl h)
  · rcases lt_trichotomy a.chunk_index b.chunk_index with h2 | h2 | h2
    · exact Or.inl (Or.inr ⟨h, Or.inl h2⟩)
    · rcases le_total b.ingested_at a.ingested_at with h3 | h3
      · exact Or.inl (Or.inr ⟨h, Or.inr ⟨h2, h3⟩⟩)
      · exact Or.inr (Or.inr ⟨h.symm, Or.inr ⟨h2.symm, h3⟩⟩)
    · exact Or.inr (Or.inr ⟨h.symm, Or.inl h2⟩)
  · exact Or.inl (Or.inl h)

instance : IsTrans FusedEntry retRank := by
  constructor
  intro a b c hab hbc
  unfold retRank at hab hbc ⊢
  rcases hab with h1 | ⟨h1, h1t⟩
  · rcases hbc with h2 | ⟨h2, _⟩
    · exact Or.inl (h2.trans h1)
    · exact Or.inl (h2 ▸ h1)
  · rcases hbc with h2 | ⟨h2, h2t⟩
    · exact Or.inl (h1 ▸ h2)
    · refine Or.inr ⟨h1.trans h2, ?_⟩
      rcases h1t with h1i | ⟨h1i, h1a⟩
      · rcases h2t with h2i | ⟨h2i, _⟩
        · exact Or.inl (h1i.trans h2i)
        · exact Or.inl (h2i ▸ h1i)
      · rcases h2t with h2i | ⟨h2i, h2a⟩
        · exact Or.inl (h1i ▸ h2i)
        · exact Or.inr ⟨h1i.trans h2i, h2a.trans h1a⟩

/-- Modelled from the spec: `retrieve` — fuse both branch rankings,
deduplicate by chunk id keeping the best combined score, order by fused
score descending with the chunk-index / recency tie-break, and return at
most `top_k` entries (the Python retrieval sources are not in the repository
snapshot). -/
def retrieve (wv wl : ℚ) (top_k : Nat) (vb lb : List BranchHit) :
    List FusedEntry :=
  (List.insertionSort retRank (dedupBest (fusedCandidates wv wl vb lb))).take
    top_k

/-- The chunk ids of a candidate list. -/
def idsOf (l : List FusedEntry) : List Nat :=
  l.map FusedEntry.chunk_id

/-- `acc` holds, per chunk id, a best-scored representative of the
candidates in `cand`. -/
def BestFor (acc cand : List FusedEntry) : Prop :=
  ∀ a ∈ acc, ∀ c ∈ cand, c.chunk_id = a.chunk_id →
    c.fused_score ≤ a.fused_score

theorem idsOf_insertBest_mem (acc : List FusedEntry) (e : FusedEntry)
    (h : e.chunk_id ∈ idsOf acc) : idsOf (insertBest acc e) = idsOf acc := by
  have hany : (acc.any (fun a => decide (a.chunk_id = e.chunk_id))) = true := by
    rcases List.mem_map.mp h with ⟨a, ha, hkey⟩
    exact List.any_eq_true.mpr ⟨a, ha, by simp [hkey]⟩
  unfold insertBest idsOf
  rw [if_pos hany, List.map_map]
  apply List.map_congr_left
  intro a _
  by_cases hc : a.chunk_id = e.chunk_id ∧ a.fused_score < e.fused_score
  · simp [hc, hc.1]
  · simp [hc]

theorem idsOf_insertBest_not_mem (acc : List FusedEntry) (e : FusedEntry)
    (h : e.chunk_id ∉ idsOf acc) :
    idsOf (insertBest acc e) = idsOf acc ++ [e.chunk_id] := by
  have hany : (acc.any (fun a => decide (a.chunk_id = e.chunk_id))) = false := by
    rw [List.any_eq_false]
    intro a ha
    simp only [decide_eq_true_eq]
    intro he
    exact h (List.mem_map.mpr ⟨a, ha, he⟩)
  unfold insertBest idsOf
  rw [if_neg (by simp [hany]), List.map_append]
  rfl

theorem mem_idsOf_insertBest_self (acc : List FusedEntry) (e : FusedEntry) :
    e.chunk_id ∈ idsOf (insertBest acc e) := by
  by_cases h : e.chunk_id ∈ idsOf acc
  · rw [idsOf_insertBest_mem acc e h]; exact h
  · rw [idsOf_insertBest_not_mem acc e h]; simp

theorem mem_idsOf_insertBest_of_mem (acc : List FusedEntry) (e : FusedEntry)
    (x : Nat) (hx : x ∈ idsOf acc) : x ∈ idsOf (insertBest acc e) := by
  by_cases h : e.chunk_id ∈ idsOf acc
  · rw [idsOf_insertBest_mem acc e h]; exact hx
  · rw [idsOf_insertBest_not_mem acc e h]; exact List.mem_append_left _ hx

theorem nodup_idsOf_insertBest (acc : List FusedEntry) (e : FusedEntry)
    (h : (idsOf acc).Nodup) : (idsOf (insertBest acc e)).Nodup := by
  by_cases hm : e.chunk_id ∈ idsOf acc
  · rw [idsOf_insertBest_mem acc e hm]; exact h
  · rw [idsOf_insertBest_not_mem acc e hm]
    exact List.nodup_append.mpr ⟨h, List.nodup_singleton _,
      by intro k hk hk2; rw [List.mem_singleton] at hk2; exact hm (hk2 ▸ hk)⟩

theorem bestFor_insertBest (acc processed : List FusedEntry) (e : FusedEntry)
    (hb : BestFor acc processed)
    (hsub : ∀ x ∈ idsOf processed, x ∈ idsOf acc) :
    BestFor (insertBest acc e) (processed ++ [e]) := by
  by_cases hmem : (acc.any (fun a => decide (a.chunk_id = e.chunk_id))) = true
  · intro a' ha' c hc hid
    rw [insertBest, if_pos hmem] at ha'
    rcases List.mem_map.mp ha' with ⟨a, ha, hrepl⟩
    by_cases hcond : a.chunk_id = e.chunk_id ∧ a.fused_score < e.fused_score
    · rw [if_pos hcond] at hrepl
      subst hrepl
      rcases List.mem_append.mp hc with hcp | hce
      · have : c.chunk_id = a.chunk_id := by rw [hid, ← hcond.1]
        exact (hb a ha c hcp this).trans hcond.2.le
      · rw [List.mem_singleton] at hce
        subst hce; exact le_refl _
    · rw [if_neg hcond] at hrepl
      subst hrepl
      rcases List.mem_append.mp hc with hcp | hce
      · exact hb a ha c hcp hid
      · rw [List.mem_singleton] at hce
        subst hce
        rcases not_and_or.mp hcond with hne | hnl
        · exact absurd hid.symm hne
        · exact not_lt.mp hnl
  · intro a' ha' c hc hid
    rw [insertBest, if_neg hmem] at ha'
    have habs : e.chunk_id ∉ idsOf acc := by
      intro hin
      rcases List.mem_map.mp hin with ⟨a, ha, hkey⟩
      exact hmem (List.any_eq_true.mpr ⟨a, ha, by simp [hkey]⟩)
    rcases List.mem_append.mp ha' with hin | heq
    · rcases List.mem_append.mp hc with hcp | hce
      · exact hb a' hin c hcp hid
      · rw [List.mem_singleton] at hce
        subst hce
        exact absurd (hid ▸ List.mem_map.mpr ⟨a', hin, rfl⟩) habs
    · rw [List.mem_singleton] at heq
      subst heq
      rcases List.mem_append.mp hc with hcp | hce
      · exact absurd (hsub _ (hid ▸ List.mem_map.mpr ⟨c, hcp, rfl⟩)) habs
      · rw [List.mem_singleton] at hce
        subst hce; exact le_refl _

theorem idsOf_sub_insertBest (acc processed : List FusedEntry)
    (e : FusedEntry) (hsub : ∀ x ∈ idsOf processed, x ∈ idsOf acc) :
    ∀ x ∈ idsOf (processed ++ [e]), x ∈ idsOf (insertBest acc e) := by
  intro x hx
  unfold idsOf at hx
  rw [List.map_append] at hx
  rcases List.mem_append.mp hx with h | h
  · exact mem_idsOf_insertBest_of_mem acc e x (hsub x h)
  · have : x = e.chunk_id := by simpa using h
    subst this
    exact mem_idsOf_insertBest_self acc e

theorem dedupBest_loop (es : List FusedEntry) :
    ∀ (acc processed : List FusedEntry),
      BestFor acc processed →
      (∀ x ∈ idsOf processed, x ∈ idsOf acc) →
      (idsOf acc).Nodup →
      BestFor (es.foldl insertBest acc) (processed ++ es) ∧
        (idsOf (es.foldl insertBest acc)).Nodup := by
  induction es with
  | nil =>
    intro acc processed hb _ hn
    simpa using ⟨hb, hn⟩
  | cons e rest ih =>
    intro acc processed hb hsub hn
    have h1 := bestFor_insertBest acc processed e hb hsub
    have h2 := idsOf_sub_insertBest acc processed e hsub
    have h3 := nodup_idsOf_insertBest acc e hn
    have := ih (insertBest acc e) (processed ++ [e]) h1 h2 h3
    simpa [List.append_assoc] using this

theorem dedupBest_spec (es : List FusedEntry) :
    BestFor (dedupBest es) es ∧ (idsOf (dedupBest es)).Nodup := by
  have h := dedupBest_loop es [] []
    (by intro a ha; cases ha) (by intro x hx; cases hx) (by simp [idsOf])
  simpa [dedupBest] using h

/-- C5: for every query and every `top_k`, the retrieval result has length
at most `top_k`, contains at most one entry per chunk id, is ordered by
fused score descending with ties broken by smaller `chunk_index` then more
recent `ingested_at`, and every returned entry carries a combined score at
least as good as every fused candidate with the same chunk id. -/
theorem retrieve_contract :
    ∀ (wv wl : ℚ) (k : Nat) (vb lb : List BranchHit),
      (retrieve wv wl k vb lb).length ≤ k ∧
      ((retrieve wv wl k vb lb).map FusedEntry.chunk_id).Nodup ∧
      List.Sorted retRank (retrieve wv wl k vb lb) ∧
      ((retrieve wv wl k vb lb).all (fun e =>
        (fusedCandidates wv wl vb lb).all (fun c =>
          !(decide (c.chunk_id = e.chunk_id)) ||
            decide (c.fused_score ≤ e.fused_score)))) = true := by
  intro wv wl k vb lb
  have hperm : List.Perm
      (List.insertionSort retRank (dedupBest (fusedCandidates wv wl vb lb)))
      (dedupBest (fusedCandidates wv wl vb lb)) :=
    List.perm_insertionSort retRank _
  refine ⟨?_, ?_, ?_, ?_⟩
  · show (List.take k _).length ≤ k
    rw [List.length_take]
    exact min_le_left _ _
  · show ((List.take k _).map FusedEntry.chunk_id).Nodup
    rw [List.map_take]
    apply List.Nodup.sublist (List.take_sublist _ _)
    have hd := (dedupBest_spec (fusedCandidates wv wl vb lb)).2
    exact (hperm.map FusedEntry.chunk_id).nodup_iff.mpr hd
  · exact List.Pairwise.sublist (List.take_sublist _ _)
      (List.sorted_insertionSort retRank _)
  · rw [List.all_eq_true]
    intro e he
    rw [List.all_eq_true]
    intro c hc
    rw [Bool.or_eq_true, Bool.not_eq_true', decide_eq_false_iff_not,
      decide_eq_true_eq]
    by_cases hid : c.chunk_id = e.chunk_id
    · right
      have hmem : e ∈ dedupBest (fusedCandidates wv wl vb lb) :=
        hperm.subset (List.mem_of_mem_take he)
      exact (dedupBest_spec (fusedCandidates wv wl vb lb)).1 e hmem c hc hid
    · left; exact hid

/- ## Embedding dimension per deployment -/

/-- Embedding dimension declared by the `documents` table of
`rag_service/scripts/init_db.sql` (`embedding vector(1536)`). -/
def initDbDocumentsEmbeddingDim : Nat := 1536

/-- Embedding dimension declared by the `rag_chunks` table of
`rag_service/scripts/migrations/001_create_rag_chunks.sql`
(`embedding VECTOR(384) NOT NULL`). -/
def ragChunksEmbeddingDim : Nat := 384

/-- Embedding dimension configured for the deployment
(`EMBEDDING_DIMENSION=384` with `EMBEDDING_MODEL=all-MiniLM-L6-v2` in the
rag_service README environment). -/
def configuredEmbeddingDim : Nat := 384

/-- Embedding dimension declared by the `chunks` table of the documented
schema (`embedding vector(384)`). -/
def chunksTableEmbeddingDim : Nat := 384

/-- Write-time validation of a stored vector against a typed pgvector
column of dimension `dim`: the insert is accepted exactly when the vector
has that many components. -/
def vectorWriteAccepted (dim : Nat) (v : List ℚ) : Bool :=
  decide (v.length = dim)

/-- C8 (divergence witness): the deployment's own schema scripts do not
agree on one embedding dimension — `rag_chunks` and the documented `chunks`
table match the configured 384, but the `documents` table created by
`init_db.sql` declares 1536, so two parts of one deployment use different
embedding dimensions, contradicting the claim and the service's own
README. -/
theorem embedding_dim_mismatch :
    ragChunksEmbeddingDim = configuredEmbeddingDim ∧
    chunksTableEmbeddingDim = configuredEmbeddingDim ∧
    initDbDocumentsEmbeddingDim ≠ configuredEmbeddingDim := by
  refine ⟨rfl, rfl, ?_⟩
  decide

/- ## Generated lexical search index -/

/-- Model of `to_tsvector('english', text)`: the lowercased alphanumeric
words of the text (the exact lexeme normalization of Postgres is abstracted;
only that the value is a function of `text` matters here). -/
def toTsvectorModel (t : String) : List String :=
  (t.toLower.split (fun c => !c.isAlphanum)).filter (fun w => !w.isEmpty)

/-- A `rag_chunks` row restricted to `text` and its generated
`text_search_vector` column (migration 003: `GENERATED ALWAYS AS
(to_tsvector('english', text)) STORED`). -/
structure TsChunkRow where
  text : String
  text_search_vector : List String
deriving DecidableEq, Repr

/-- The operations that can touch a chunk row's text.  Because
`text_search_vector` is `GENERATED ALWAYS`, SQL rejects any direct
assignment to it, so no operation carries a search-vector value: the column
is recomputed from `text` by the database on every insert and update. -/
inductive ChunkRowOp where
  | insertRow (text : String)
  | updateText (text : String)
deriving DecidableEq, Repr

/-- Semantics of one operation under the generated-column rule of
migration 003: the stored `text_search_vector` is always the derivation of
the new `text`. -/
def applyChunkRowOp (_r : TsChunkRow) (op : ChunkRowOp) : TsChunkRow :=
  match op with
  | .insertRow t => ⟨t, toTsvectorModel t⟩
  | .updateText t => ⟨t, toTsvectorModel t⟩

/-- A chunk row as first inserted. -/
def initialChunkRow (t : String) : TsChunkRow :=
  ⟨t, toTsvectorModel t⟩

theorem sync_after_ops (ops : List ChunkRowOp) :
    ∀ (r : TsChunkRow),
      r.text_search_vector = toTsvectorModel r.text →
      (ops.foldl applyChunkRowOp r).text_search_vector =
        toTsvectorModel (ops.foldl applyChunkRowOp r).text := by
  induction ops with
  | nil => intro r h; exact h
  | cons op rest ih =>
    intro r _
    apply ih
    cases op <;> rfl

/-- C9: after any sequence of inserts and text updates, a chunk row's
lexical search index equals the lexical derivation of its current text —
the generated column is kept in sync automatically and is never written
directly (no operation can carry a value for it). -/
theorem lexical_index_in_sync :
    ∀ (t0 : String) (ops : List ChunkRowOp),
      (ops.foldl applyChunkRowOp (initialChunkRow t0)).text_search_vector =
        toTsvectorModel (ops.foldl applyChunkRowOp (initialChunkRow t0)).text := by
  intro t0 ops
  exact sync_after_ops ops (initialChunkRow t0) rfl

/- ## Local inference server token budget -/

/-- The hard total-token budget of the local TGI inference server, set by
`--max-total-tokens 4096` in `rag-project/serve/start.sh` and documented in
`README.txt`. -/
def tgiMaxTotalTokens : Nat := 4096

/-- Result of a `/generate` request: generated text, or the HTTP 422
rejection. -/
inductive TgiGenerateResult where
  | ok (text : String)
  | unprocessableEntity
deriving DecidableEq, Repr

/-- The generated text of a response, if any. -/
def tgiGeneratedText : TgiGenerateResult → Option String
  | .ok t => some t
  | .unprocessableEntity => none

/-- The token-limit enforcement of the local inference server as configured
by `start.sh` and documented in `README.txt`: a request is served exactly
when `input_tokens + max_new_tokens ≤ 4096`, otherwise it is rejected with
HTTP 422 (the server itself is the pinned external TGI image; its documented
enforcement is what the repository configures). -/
def tgiGenerate (inputTokens maxNewTokens : Nat) (modelText : String) :
    TgiGenerateResult :=
  if inputTokens + maxNewTokens ≤ tgiMaxTotalTokens then .ok modelText
  else .unprocessableEntity

/-- C10: every `/generate` request with `input_tokens + max_new_tokens`
beyond 4096 is rejected with HTTP 422 and produces no generated text, and
every request within the budget is served. -/
theorem tgi_token_budget :
    ∀ (inputTokens maxNewTokens : Nat) (t : String),
      (tgiMaxTotalTokens < inputTokens + maxNewTokens →
        tgiGenerate inputTokens maxNewTokens t = .unprocessableEntity ∧
        tgiGeneratedText (tgiGenerate inputTokens maxNewTokens t) = none) ∧
      (inputTokens + maxNewTokens ≤ tgiMaxTotalTokens →
        tgiGenerate inputTokens maxNewTokens t = .ok t) := by
  intro inputTokens maxNewTokens t
  constructor
  · intro h
    have hn : ¬ inputTokens + maxNewTokens ≤ tgiMaxTotalTokens := not_le.mpr h
    constructor
    · rw [tgiGenerate, if_neg hn]
    · rw [tgiGenerate, if_neg hn]; rfl
  · intro h
    rw [tgiGenerate, if_pos h]

/-- Witness: `tgi_token_budget` applied at a request of 4000 prompt tokens
with 512 requested new tokens (over budget, rejected) — the bound is
discharged concretely. -/
theorem tgi_token_budget_witness :
    tgiGenerate 4000 512 "answer" = .unprocessableEntity ∧
    tgiGeneratedText (tgiGenerate 4000 512 "answer") = none :=
  (tgi_token_budget 4000 512 "answer").1 (by decide)

end AmbienceCore
